import Mathlib

/-!
Verification development for the multicam auto-cut engine.

The Python sources are shallowly embedded: `float` values are modelled as
exact rationals (`ℚ`), Python `int()` truncation and `round()` banker's
rounding are modelled explicitly, FCPXML rational-time strings are modelled
by their parsed shape (`RationalTime`), and fallible parsing is modelled by
the `malformed` constructor (the code returns `0.0` there).
-/

/-- Python `int(x)` applied to a float: truncation toward zero. -/
def pyTrunc (q : ℚ) : ℤ :=
  if 0 ≤ q then ⌊q⌋ else -⌊-q⌋

/-- Python `round(x)`: round half to even (banker's rounding). -/
def pyRound (q : ℚ) : ℤ :=
  let f := ⌊q⌋
  let r := q - f
  if r < 1/2 then f
  else if 1/2 < r then f + 1
  else if f % 2 = 0 then f else f + 1

/-- Python `list.index(v)`: index of the first occurrence of `v`
(returns the length when absent; the code only calls it on members). -/
def pyIndexOf (v : ℚ) : List ℚ → ℕ
  | [] => 0
  | x :: xs => if x = v then 0 else pyIndexOf v xs + 1

/-- Python `max(list)` on a list of floats (`0` on the empty list, where
Python would raise; callers below only use it on non-empty lists). -/
def listMax : List ℚ → ℚ
  | [] => 0
  | x :: xs => xs.foldl max x

/-- `FrameRateInfo` dataclass from `src/frame_rate_handler.py`. -/
structure FrameRateInfo where
  rate : ℚ
  timebase : ℤ
  timescale : ℤ
  is_drop_frame : Bool
  name : String
  fcpxml_duration_format : String
deriving DecidableEq

/-- Parsed shape of an FCPXML rational-time string:
`whole q` models `"<q>s"`, `frac n d` models `"<n>/<d>s"`, and
`malformed` models a string that fails to parse (no trailing `s`
or non-numeric content). -/
inductive RationalTime where
  | whole (q : ℚ)
  | frac (num den : ℚ)
  | malformed
deriving DecidableEq

/-- Numeric value denoted by a rational-time string, before any drop-frame
correction (`0` for malformed input or a zero denominator, mirroring the
`except` fallback in `rational_time_to_seconds`). -/
def RationalTime.value : RationalTime → ℚ
  | .whole q => q
  | .frac n d => if d = 0 then 0 else n / d
  | .malformed => 0

/-- A time value `v` lies exactly on a frame boundary of `f` when it is an
integer number of frames, each frame lasting `timescale/timebase` seconds:
`v = k * timescale / timebase` for some integer `k`, stated without the
division as `v * timebase = k * timescale`. -/
def frameAligned (v : ℚ) (f : FrameRateInfo) : Prop :=
  ∃ k : ℤ, v * (f.timebase : ℚ) = (k : ℚ) * (f.timescale : ℚ)

/-- `FRAME_RATES['29.97']` (non drop frame). -/
def FRAME_RATES_2997 : FrameRateInfo :=
  ⟨2997/100, 30000, 1001, false, "29.97 fps", "1001/30000s"⟩

/-- `FRAME_RATES['29.97df']`. -/
def FRAME_RATES_2997df : FrameRateInfo :=
  ⟨2997/100, 30000, 1001, true, "29.97 fps Drop Frame", "1001/30000s"⟩

/-- `FRAME_RATES['24']`. -/
def FRAME_RATES_24 : FrameRateInfo :=
  ⟨24, 24, 1, false, "24 fps", "1/24s"⟩

namespace FrameRateHandler

/-- `FrameRateHandler._apply_drop_frame_correction`. -/
def apply_drop_frame_correction (seconds : ℚ) (f : FrameRateInfo) : ℚ :=
  if f.is_drop_frame = false then seconds
  else if |f.rate - 2997/100| < 1/100 then
    let total_frames := seconds * (2997/100)
    let minutes : ℤ := pyTrunc (total_frames / ((2997/100) * 60))
    let dropped_frames : ℤ := minutes * 2 - (Int.fdiv minutes 10) * 2
    (total_frames + (dropped_frames : ℚ)) / (2997/100)
  else if |f.rate - 5994/100| < 1/100 then
    let total_frames := seconds * (5994/100)
    let minutes : ℤ := pyTrunc (total_frames / ((5994/100) * 60))
    let dropped_frames : ℤ := minutes * 4 - (Int.fdiv minutes 10) * 4
    (total_frames + (dropped_frames : ℚ)) / (5994/100)
  else seconds

/-- `FrameRateHandler._reverse_drop_frame_correction`. -/
def reverse_drop_frame_correction (real_seconds : ℚ) (f : FrameRateInfo) : ℚ :=
  if f.is_drop_frame = false then real_seconds
  else if |f.rate - 2997/100| < 1/100 then
    let real_frames := real_seconds * (2997/100)
    let estimated_minutes : ℤ := pyTrunc (real_frames / ((2997/100) * 60))
    let dropped_frames : ℤ := estimated_minutes * 2 - (Int.fdiv estimated_minutes 10) * 2
    (real_frames - (dropped_frames : ℚ)) / (2997/100)
  else if |f.rate - 5994/100| < 1/100 then
    let real_frames := real_seconds * (5994/100)
    let estimated_minutes : ℤ := pyTrunc (real_frames / ((5994/100) * 60))
    let dropped_frames : ℤ := estimated_minutes * 4 - (Int.fdiv estimated_minutes 10) * 4
    (real_frames - (dropped_frames : ℚ)) / (5994/100)
  else real_seconds

/-- `FrameRateHandler.rational_time_to_seconds`: parse, then apply the
forward drop-frame correction when a drop-frame rate is in context.
Malformed strings and zero denominators return `0.0` (with a logged
warning in the source) before any correction is applied. -/
def rational_time_to_seconds (rt : RationalTime) (fri : Option FrameRateInfo) : ℚ :=
  match rt with
  | .malformed => 0
  | .whole q =>
    match fri with
    | some f => if f.is_drop_frame then apply_drop_frame_correction q f else q
    | none => q
  | .frac n d =>
    if d = 0 then 0
    else
      match fri with
      | some f => if f.is_drop_frame then apply_drop_frame_correction (n / d) f else n / d
      | none => n / d

/-- `FrameRateHandler.seconds_to_rational_time`: reverse drop-frame
correction when applicable, then emit `"<seconds>s"` when `timescale == 1`,
otherwise `"<int(seconds*timebase)>/<timebase>s"`. -/
def seconds_to_rational_time (seconds : ℚ) (f : FrameRateInfo) : RationalTime :=
  let s := if f.is_drop_frame then reverse_drop_frame_correction seconds f else seconds
  if f.timescale = 1 then .whole s
  else .frac ((pyTrunc (s * (f.timebase : ℚ)) : ℚ)) (f.timebase : ℚ)

end FrameRateHandler

namespace CutGenerator

/-- `CutGenerator._seconds_to_rational_time` (the emission path): for a
29.97 drop-frame context, round to the nearest whole frame and emit
`"<frames*1001>/30000s"`; otherwise defer to the handler; with no frame
rate in context emit `"<seconds>s"`. -/
def seconds_to_rational_time (seconds : ℚ) (fri : Option FrameRateInfo) : RationalTime :=
  match fri with
  | some f =>
    if f.is_drop_frame = true ∧ |f.rate - 2997/100| < 1/100 then
      .frac ((pyRound (seconds * (2997/100)) : ℚ) * 1001) 30000
    else FrameRateHandler.seconds_to_rational_time seconds f
  | none => .whole seconds

end CutGenerator

/-- `CleaningSegment` dataclass from `src/transcript_cleaner.py`
(`end` is a Lean keyword, so the `end_time` field keeps its source name
and `stop` is used for the range dict key `'end'` below). -/
structure CleaningSegment where
  start_time : ℚ
  end_time : ℚ
  original_text : String
  cleaned_text : String
  confidence : ℚ
  is_keeper : Bool
  segment_id : Option ℕ
deriving DecidableEq

/-- An input transcription segment record as consumed by
`TranscriptCleaner._convert_to_cleaning_segments`: a dict with `start`,
`end`, `text`, and an optional `no_speech_prob` key (`none` models a
record lacking the key, where `.get` supplies the `0.0` default). -/
structure TranscriptSegment where
  start : ℚ
  stop : ℚ
  text : String
  no_speech_prob : Option ℚ
deriving DecidableEq

/-- A `{'start': .., 'end': ..}` range dict from the timing mapper
(`stop` models the `'end'` key). -/
structure TimeRange where
  start : ℚ
  stop : ℚ
deriving DecidableEq

/-- Sum of the durations `end - start` of a list of ranges. -/
def sumRanges (l : List TimeRange) : ℚ :=
  (l.map (fun r => r.stop - r.start)).sum

namespace TranscriptCleaner

/-- Loop body of `TranscriptCleaner._convert_to_cleaning_segments`,
carrying the `enumerate` index. -/
def convert_go (i : ℕ) : List TranscriptSegment → List CleaningSegment
  | [] => []
  | s :: rest =>
    ⟨s.start, s.stop, s.text.trim, "", 1 - (s.no_speech_prob.getD 0), false, some i⟩
      :: convert_go (i + 1) rest

/-- `TranscriptCleaner._convert_to_cleaning_segments`. -/
def convert_to_cleaning_segments (segments : List TranscriptSegment) : List CleaningSegment :=
  convert_go 0 segments

/-- Length of the longest cleaned text in a take group
(`max(len(seg.cleaned_text) for seg in segments)`; `0` on the empty list). -/
def maxCleanedLen (segments : List CleaningSegment) : ℕ :=
  segments.foldr (fun s m => max s.cleaned_text.length m) 0

/-- Score of the take at position `i` in a group of `n` segments, from
`TranscriptCleaner._select_best_take`: last-take bonus `i/max(1,n-1)`
weighted `0.5`, length bonus weighted `0.3` (skipped when the longest
cleaned text is empty), confidence weighted `0.2`. -/
def takeScore (n maxLen : ℕ) (i : ℕ) (seg : CleaningSegment) : ℚ :=
  (i : ℚ) / ((max 1 (n - 1) : ℕ) : ℚ) * (1/2)
    + (if 0 < maxLen then ((seg.cleaned_text.length : ℚ) / (maxLen : ℚ)) * (3/10) else 0)
    + seg.confidence * (1/5)

/-- Loop of `TranscriptCleaner._select_best_take`, carrying the
`enumerate` index `i`. -/
def takeScores_go (n maxLen i : ℕ) : List CleaningSegment → List ℚ
  | [] => []
  | s :: rest => takeScore n maxLen i s :: takeScores_go n maxLen (i + 1) rest

/-- The list `scores` computed by `TranscriptCleaner._select_best_take`. -/
def takeScores (segments : List CleaningSegment) : List ℚ :=
  takeScores_go segments.length (maxCleanedLen segments) 0 segments

/-- `take_group.best_take_index = scores.index(max(scores))` from
`TranscriptCleaner._select_best_take`. -/
def select_best_take_index (segments : List CleaningSegment) : ℕ :=
  pyIndexOf (listMax (takeScores segments)) (takeScores segments)

/-- Merge loop of `TranscriptCleaner._create_timing_mapping`: extend the
current range while the gap to the next keeper is at most `1.0` second,
otherwise flush it and start a new range. -/
def build_keep_go (cs ce : ℚ) : List CleaningSegment → List TimeRange
  | [] => [⟨cs, ce⟩]
  | s :: rest =>
    if s.start_time - ce ≤ 1 then build_keep_go cs s.end_time rest
    else ⟨cs, ce⟩ :: build_keep_go s.start_time s.end_time rest

/-- The `keep_ranges` list of `TranscriptCleaner._create_timing_mapping`. -/
def build_keep_ranges : List CleaningSegment → List TimeRange
  | [] => []
  | k :: ks => build_keep_go k.start_time k.end_time ks

/-- The cut ranges between consecutive keep ranges. -/
def middle_cuts : List TimeRange → List TimeRange
  | a :: b :: rest => ⟨a.stop, b.start⟩ :: middle_cuts (b :: rest)
  | _ => []

/-- `keep_ranges[-1]['end']`, as a fold from a default. -/
def lastStop (d : ℚ) : List TimeRange → ℚ
  | [] => d
  | r :: rs => lastStop r.stop rs

/-- The `cut_ranges` list of `TranscriptCleaner._create_timing_mapping`:
a leading cut when the first keep range starts after `0`, the gaps between
consecutive keep ranges, and a trailing cut when the last keep range ends
before the total duration. Empty when there are no keep ranges. -/
def build_cut_ranges (keeps : List TimeRange) (total_duration : ℚ) : List TimeRange :=
  match keeps with
  | [] => []
  | k0 :: rest =>
    (if 0 < k0.start then [⟨0, k0.start⟩] else [])
      ++ middle_cuts (k0 :: rest)
      ++ (if lastStop k0.stop rest < total_duration then
            [⟨lastStop k0.stop rest, total_duration⟩] else [])

/-- Tail of `max(seg.end_time for seg in segments)`. -/
def maxEnd_go (m : ℚ) : List CleaningSegment → ℚ
  | [] => m
  | s :: rest => maxEnd_go (max m s.end_time) rest

/-- `max(seg.end_time for seg in original_segments)`; `0` on the empty
list (where the Python generator `max` would raise, a case the pipeline
never produces since keeper segments come from the original segments). -/
def maxEnd : List CleaningSegment → ℚ
  | [] => 0
  | s :: rest => maxEnd_go s.end_time rest

/-- Result dict of `TranscriptCleaner._create_timing_mapping`. -/
structure TimingMapping where
  keep_ranges : List TimeRange
  cut_ranges : List TimeRange
  total_original_duration : ℚ
  total_cleaned_duration : ℚ
deriving DecidableEq

/-- `TranscriptCleaner._create_timing_mapping`. -/
def create_timing_mapping (original_segments keeper_segments : List CleaningSegment) :
    TimingMapping :=
  let keeps := build_keep_ranges keeper_segments
  { keep_ranges := keeps
    cut_ranges := build_cut_ranges keeps (maxEnd original_segments)
    total_original_duration := maxEnd original_segments
    total_cleaned_duration := sumRanges keeps }

end TranscriptCleaner

namespace CutGenerator

/-- One reconstructed clip placement: `offset` is the position in the new
timeline, `source_start` the `start` attribute pointing into the original
clip, `duration` the segment length (all in seconds, the values converted
to rational time by `_create_sequential_cut_clip`). -/
structure Placement where
  offset : ℚ
  source_start : ℚ
  duration : ℚ
deriving DecidableEq

/-- `CutGenerator._create_sequential_cut_clip`, restricted to the timing
attributes it sets on the copied clip. -/
def create_sequential_cut_clip (keep_range : TimeRange) (timeline_offset : ℚ) : Placement :=
  ⟨timeline_offset, keep_range.start, keep_range.stop - keep_range.start⟩

/-- Loop of `CutGenerator._apply_cuts_to_multicam_clip_new`, threading
`cumulative_offset`. -/
def apply_cuts_go (cumulative_offset : ℚ) : List TimeRange → List Placement
  | [] => []
  | k :: rest =>
    create_sequential_cut_clip k cumulative_offset
      :: apply_cuts_go (cumulative_offset + (k.stop - k.start)) rest

/-- `CutGenerator._apply_cuts_to_multicam_clip_new`: one placement per
keep range, appended to the cleared spine with a running cumulative
offset starting at `0.0`. -/
def apply_cuts_to_multicam_clip_new (keep_ranges : List TimeRange) : List Placement :=
  apply_cuts_go 0 keep_ranges

end CutGenerator

/-- Modelled from the claim wording of C8 (the spec's drop-frame formula,
stated with the `FrameRate`'s own `rate` throughout): `total_frames =
seconds * rate`, `minutes = floor(total_frames / (rate*60))`, result
`(total_frames + minutes*K - floor(minutes/10)*K) / rate` with `K = 2`
within `0.01` of `29.97`, `K = 4` within `0.01` of `59.94`, else `K = 0`. -/
def claimDropFrameSeconds (seconds : ℚ) (f : FrameRateInfo) : ℚ :=
  let K : ℤ := if |f.rate - 2997/100| < 1/100 then 2
    else if |f.rate - 5994/100| < 1/100 then 4 else 0
  let total_frames := seconds * f.rate
  let minutes : ℤ := ⌊total_frames / (f.rate * 60)⌋
  (total_frames + ((minutes * K - (Int.fdiv minutes 10) * K : ℤ) : ℚ)) / f.rate

/-- A synthetic drop-frame rate within the `0.01` matching tolerance of
29.97 but not equal to it (constructible in the code from a
`primary_frame_rate` dict), separating the hardcoded `29.97` constant in
`_apply_drop_frame_correction` from the claim's use of `fr.rate`. -/
def cexDropRate : FrameRateInfo :=
  ⟨29975/1000, 30000, 1001, true, "29.975 fps Drop Frame", "1001/30000s"⟩

/-- Concrete three-take group exercising the tie in `_select_best_take`:
cleaned-text lengths 1, 4, 1 and confidences 0, 1, 7/8 give the scores
`[3/40, 3/4, 3/4]`, a tie between indices 1 and 2. -/
def tieTakeGroup : List CleaningSegment :=
  [⟨0, 1, "", "a", 0, false, none⟩,
   ⟨2, 3, "", "aaaa", 1, false, none⟩,
   ⟨4, 5, "", "a", 7/8, false, none⟩]

theorem pyTrunc_of_nonneg (q : ℚ) (h : 0 ≤ q) : pyTrunc q = ⌊q⌋ :=
  if_pos h

theorem pyTrunc_intCast (k : ℤ) : pyTrunc (k : ℚ) = k := by
  unfold pyTrunc
  split
  · exact Int.floor_intCast k
  · rw [← Int.cast_neg, Int.floor_intCast, neg_neg]

theorem convert_go_get_confidence (segments : List TranscriptSegment) :
    ∀ j i, ((TranscriptCleaner.convert_go j segments).get? i).map CleaningSegment.confidence
      = (segments.get? i).map (fun s => 1 - s.no_speech_prob.getD 0) := by
  induction segments with
  | nil => intro j i; rfl
  | cons s rest ih =>
    intro j i
    cases i with
    | zero => simp [TranscriptCleaner.convert_go]
    | succ i =>
      simpa [TranscriptCleaner.convert_go] using ih (j + 1) i

/-- C10: the derived confidence is `1.0 - no_speech_prob`, and a record
lacking the `no_speech_prob` key gets full confidence `1.0`. -/
theorem c10_confidence (segments : List TranscriptSegment) (i : ℕ) (s : TranscriptSegment)
    (h : segments.get? i = some s) :
    ((TranscriptCleaner.convert_to_cleaning_segments segments).get? i).map
        CleaningSegment.confidence = some (1 - s.no_speech_prob.getD 0) ∧
    (s.no_speech_prob = none →
      ((TranscriptCleaner.convert_to_cleaning_segments segments).get? i).map
        CleaningSegment.confidence = some 1) := by
  have hg : ((TranscriptCleaner.convert_to_cleaning_segments segments).get? i).map
      CleaningSegment.confidence = some (1 - s.no_speech_prob.getD 0) := by
    have hg0 := convert_go_get_confidence segments 0 i
    rw [h] at hg0
    exact hg0
  refine ⟨hg, fun hn => ?_⟩
  rw [hg, hn]
  simp

theorem c10_confidence_witness :
    ((TranscriptCleaner.convert_to_cleaning_segments [⟨0, 1, "hi", none⟩]).get? 0).map
      CleaningSegment.confidence = some 1 :=
  (c10_confidence [⟨0, 1, "hi", none⟩] 0 ⟨0, 1, "hi", none⟩ rfl).2 rfl

theorem c4_counterexample :
    (TranscriptCleaner.create_timing_mapping [⟨0, 10, "t", "t", 1, false, none⟩] []).keep_ranges
        = [] ∧
    (TranscriptCleaner.create_timing_mapping [⟨0, 10, "t", "t", 1, false, none⟩] []).cut_ranges
        = [] ∧
    (TranscriptCleaner.create_timing_mapping
        [⟨0, 10, "t", "t", 1, false, none⟩] []).total_original_duration = 10 ∧
    ([] : List TimeRange) ≠ [⟨0, 10⟩] := by
  refine ⟨rfl, rfl, rfl, by simp⟩

/-- C4 (amended): with zero keeper segments the timing mapper returns
empty `keep_ranges` and empty `cut_ranges` (no cut range spanning the
timeline is produced), together with the total original duration, as a
normal non-fatal result. -/
theorem c4_empty_keepers (original_segments : List CleaningSegment) :
    (TranscriptCleaner.create_timing_mapping original_segments []).keep_ranges = [] ∧
    (TranscriptCleaner.create_timing_mapping original_segments []).cut_ranges = [] ∧
    (TranscriptCleaner.create_timing_mapping original_segments []).total_original_duration
        = TranscriptCleaner.maxEnd original_segments :=
  ⟨rfl, rfl, rfl⟩

theorem c1_counterexample :
    CutGenerator.seconds_to_rational_time (1/2) (some FRAME_RATES_2997)
        = RationalTime.frac 15000 30000 ∧
    ¬ frameAligned
        ((CutGenerator.seconds_to_rational_time (1/2) (some FRAME_RATES_2997)).value)
        FRAME_RATES_2997 := by
  have heq : CutGenerator.seconds_to_rational_time (1/2) (some FRAME_RATES_2997)
      = RationalTime.frac 15000 30000 := by
    simp only [CutGenerator.seconds_to_rational_time, FRAME_RATES_2997,
      FrameRateHandler.seconds_to_rational_time, pyTrunc]
    norm_num
  refine ⟨heq, ?_⟩
  rw [heq]
  rintro ⟨k, hk⟩
  simp only [RationalTime.value, FRAME_RATES_2997] at hk
  norm_num at hk
  have hk2 : (15000 : ℤ) = k * 1001 := by exact_mod_cast hk
  omega

/-- C1 (amended): the emission path never raises; for a 29.97 drop-frame
context it always emits a whole number of frames (hence an exactly
frame-aligned rational time), while for every other rate it defers to
the truncating handler conversion with no alignment check and no error;
malformed time strings during intermediate processing degrade to `0.0`. -/
theorem c1_emission_amended (s : ℚ) (f : FrameRateInfo) (hdf : f.is_drop_frame = true)
    (hr : |f.rate - 2997/100| < 1/100) (htb : f.timebase = 30000) (hts : f.timescale = 1001) :
    CutGenerator.seconds_to_rational_time s (some f)
        = RationalTime.frac ((pyRound (s * (2997/100)) : ℚ) * 1001) 30000 ∧
    frameAligned ((CutGenerator.seconds_to_rational_time s (some f)).value) f ∧
    (∀ fri, FrameRateHandler.rational_time_to_seconds RationalTime.malformed fri = 0) := by
  have heq : CutGenerator.seconds_to_rational_time s (some f)
      = RationalTime.frac ((pyRound (s * (2997/100)) : ℚ) * 1001) 30000 := by
    show (if f.is_drop_frame = true ∧ |f.rate - 2997/100| < 1/100 then
        RationalTime.frac ((pyRound (s * (2997/100)) : ℚ) * 1001) 30000
      else FrameRateHandler.seconds_to_rational_time s f)
      = RationalTime.frac ((pyRound (s * (2997/100)) : ℚ) * 1001) 30000
    rw [if_pos ⟨hdf, hr⟩]
  refine ⟨heq, ?_, fun fri => rfl⟩
  rw [heq]
  refine ⟨pyRound (s * (2997/100)), ?_⟩
  simp only [RationalTime.value]
  rw [htb, hts]
  norm_num

theorem c1_emission_amended_witness :
    frameAligned
      ((CutGenerator.seconds_to_rational_time (1/2) (some FRAME_RATES_2997df)).value)
      FRAME_RATES_2997df :=
  (c1_emission_amended (1/2) FRAME_RATES_2997df rfl (by norm_num [FRAME_RATES_2997df])
    rfl rfl).2.1

theorem c6_counterexample :
    FrameRateHandler.seconds_to_rational_time (1/2) FRAME_RATES_24
        = RationalTime.whole (1/2) ∧
    RationalTime.whole (1/2) ≠ RationalTime.frac 12 24 := by
  constructor
  · simp [FrameRateHandler.seconds_to_rational_time, FRAME_RATES_24]
  · simp

/-- C6 (amended): the handler conversion branches on `timescale == 1`
(not on the timebase), emitting the seconds value verbatim there
(possibly a non-integer, hence possibly a fractional-frame time); for
`timescale ≠ 1` it truncates toward zero — for nonnegative seconds the
numerator is `⌊seconds * timebase⌋` (not the nearest tick), the emitted
value underestimates by less than one `1/timebase` tick, and is exact
precisely when `seconds * timebase` is already an integer. -/
theorem c6_to_rational_amended (s : ℚ) (f : FrameRateInfo) (hdf : f.is_drop_frame = false)
    (h0 : 0 ≤ s) (htb : 0 ≤ f.timebase) :
    (f.timescale = 1 →
      FrameRateHandler.seconds_to_rational_time s f = RationalTime.whole s) ∧
    (f.timescale ≠ 1 →
      FrameRateHandler.seconds_to_rational_time s f
          = RationalTime.frac ((⌊s * (f.timebase : ℚ)⌋ : ℚ)) ((f.timebase : ℤ) : ℚ) ∧
      ((⌊s * (f.timebase : ℚ)⌋ : ℚ)) ≤ s * (f.timebase : ℚ) ∧
      s * (f.timebase : ℚ) < ((⌊s * (f.timebase : ℚ)⌋ : ℚ)) + 1 ∧
      (∀ k : ℤ, s * (f.timebase : ℚ) = (k : ℚ) →
        ((⌊s * (f.timebase : ℚ)⌋ : ℚ)) = s * (f.timebase : ℚ))) := by
  have hnn : 0 ≤ s * (f.timebase : ℚ) := by
    apply mul_nonneg h0
    exact_mod_cast htb
  constructor
  · intro h1
    simp [FrameRateHandler.seconds_to_rational_time, hdf, h1]
  · intro hne
    refine ⟨?_, Int.floor_le _, Int.lt_floor_add_one _, fun k hk => ?_⟩
    · simp [FrameRateHandler.seconds_to_rational_time, hdf, hne,
        pyTrunc_of_nonneg _ hnn]
    · rw [hk, Int.floor_intCast]

theorem sumRanges_append (a b : List TimeRange) :
    sumRanges (a ++ b) = sumRanges a + sumRanges b := by
  simp [sumRanges]

theorem apply_cuts_new_def (ks : List TimeRange) :
    CutGenerator.apply_cuts_to_multicam_clip_new ks = CutGenerator.apply_cuts_go 0 ks :=
  rfl

theorem apply_cuts_go_length : ∀ (ks : List TimeRange) (cum : ℚ),
    (CutGenerator.apply_cuts_go cum ks).length = ks.length := by
  intro ks
  induction ks with
  | nil => intro cum; rfl
  | cons k rest ih =>
    intro cum
    simp [CutGenerator.apply_cuts_go, ih]

theorem apply_cuts_go_source_start : ∀ (ks : List TimeRange) (cum : ℚ) (i : ℕ),
    ((CutGenerator.apply_cuts_go cum ks).get? i).map CutGenerator.Placement.source_start
      = (ks.get? i).map TimeRange.start := by
  intro ks
  induction ks with
  | nil => intro cum i; rfl
  | cons k rest ih =>
    intro cum i
    cases i with
    | zero => rfl
    | succ i => simpa [CutGenerator.apply_cuts_go] using ih _ i

theorem apply_cuts_go_duration : ∀ (ks : List TimeRange) (cum : ℚ) (i : ℕ),
    ((CutGenerator.apply_cuts_go cum ks).get? i).map CutGenerator.Placement.duration
      = (ks.get? i).map (fun r => r.stop - r.start) := by
  intro ks
  induction ks with
  | nil => intro cum i; rfl
  | cons k rest ih =>
    intro cum i
    cases i with
    | zero => rfl
    | succ i => simpa [CutGenerator.apply_cuts_go] using ih _ i

theorem apply_cuts_go_offset_get : ∀ (ks : List TimeRange) (cum : ℚ) (i : ℕ),
    ((CutGenerator.apply_cuts_go cum ks).get? i).map CutGenerator.Placement.offset
      = (ks.get? i).map (fun _ => cum + sumRanges (ks.take i)) := by
  intro ks
  induction ks with
  | nil => intro cum i; rfl
  | cons k rest ih =>
    intro cum i
    cases i with
    | zero =>
      simp [CutGenerator.apply_cuts_go, CutGenerator.create_sequential_cut_clip, sumRanges]
    | succ i =>
      have h := ih (cum + (k.stop - k.start)) i
      simp only [CutGenerator.apply_cuts_go, List.get?]
      rw [h]
      cases hr : rest.get? i with
      | none => rfl
      | some a =>
        simp [sumRanges]
        ring

/-- C2: for a non-empty list of keep ranges the reconstructed placement
list has exactly one placement per keep range in order, with source start
equal to the range start, duration equal to `end - start`, first offset
`0`, and each next offset equal to the previous offset plus its
duration. -/
theorem c2_placements (keep_ranges : List TimeRange) (h : keep_ranges ≠ []) :
    (CutGenerator.apply_cuts_to_multicam_clip_new keep_ranges).length = keep_ranges.length ∧
    (∀ i, ((CutGenerator.apply_cuts_to_multicam_clip_new keep_ranges).get? i).map
        CutGenerator.Placement.source_start = (keep_ranges.get? i).map TimeRange.start) ∧
    (∀ i, ((CutGenerator.apply_cuts_to_multicam_clip_new keep_ranges).get? i).map
        CutGenerator.Placement.duration
        = (keep_ranges.get? i).map (fun r => r.stop - r.start)) ∧
    ((CutGenerator.apply_cuts_to_multicam_clip_new keep_ranges).get? 0).map
        CutGenerator.Placement.offset = some 0 ∧
    (∀ i p q, (CutGenerator.apply_cuts_to_multicam_clip_new keep_ranges).get? i = some p →
      (CutGenerator.apply_cuts_to_multicam_clip_new keep_ranges).get? (i + 1) = some q →
      q.offset = p.offset + p.duration) := by
  rw [apply_cuts_new_def]
  refine ⟨apply_cuts_go_length keep_ranges 0, apply_cuts_go_source_start keep_ranges 0,
    apply_cuts_go_duration keep_ranges 0, ?_, ?_⟩
  · have h0 := apply_cuts_go_offset_get keep_ranges 0 0
    cases keep_ranges with
    | nil => exact absurd rfl h
    | cons k rest =>
      rw [h0]
      simp [sumRanges]
  · intro i p q hp hq
    have hoi := apply_cuts_go_offset_get keep_ranges 0 i
    have hoi1 := apply_cuts_go_offset_get keep_ranges 0 (i + 1)
    have hdi := apply_cuts_go_duration keep_ranges 0 i
    rw [hp] at hoi hdi
    rw [hq] at hoi1
    cases hr : keep_ranges.get? i with
    | none => rw [hr] at hoi; simp at hoi
    | some r =>
      rw [hr] at hoi hdi
      cases hr1 : keep_ranges.get? (i + 1) with
      | none => rw [hr1] at hoi1; simp at hoi1
      | some r1 =>
        rw [hr1] at hoi1
        have hofs : p.offset = 0 + sumRanges (keep_ranges.take i) := by
          simpa using hoi
        have hofs1 : q.offset = 0 + sumRanges (keep_ranges.take (i + 1)) := by
          simpa using hoi1
        have hdur : p.duration = r.stop - r.start := by
          simpa using hdi
        have htake : keep_ranges.take (i + 1) = keep_ranges.take i ++ [r] := by
          rw [List.take_succ]
          have hge : keep_ranges[i]? = some r := by
            rw [← List.get?_eq_getElem?]
            exact hr
          rw [hge]
          rfl
        rw [hofs, hofs1, hdur, htake, sumRanges_append]
        simp [sumRanges]

theorem c2_placements_witness :
    ((CutGenerator.apply_cuts_to_multicam_clip_new [⟨0, 1⟩, ⟨5, 7⟩]).get? 0).map
      CutGenerator.Placement.offset = some 0 :=
  (c2_placements [⟨0, 1⟩, ⟨5, 7⟩] (by simp)).2.2.2.1

theorem c6_to_rational_amended_witness :
    FrameRateHandler.seconds_to_rational_time (1/2) FRAME_RATES_2997
        = RationalTime.frac 15000 30000 := by
  have h := (c6_to_rational_amended (1/2) FRAME_RATES_2997 rfl (by norm_num)
    (by norm_num [FRAME_RATES_2997])).2 (by norm_num [FRAME_RATES_2997])
  rw [h.1]
  norm_num [FRAME_RATES_2997]

theorem le_foldl_max : ∀ (xs : List ℚ) (a : ℚ), a ≤ xs.foldl max a := by
  intro xs
  induction xs with
  | nil => intro a; exact le_refl a
  | cons y ys ih =>
    intro a
    exact le_trans (le_max_left a y) (ih (max a y))

theorem mem_le_foldl_max : ∀ (xs : List ℚ) (a x : ℚ), x ∈ xs → x ≤ xs.foldl max a := by
  intro xs
  induction xs with
  | nil => intro a x h; exact absurd h (List.not_mem_nil x)
  | cons y ys ih =>
    intro a x h
    rcases List.mem_cons.mp h with h | h
    · rw [h]
      exact le_trans (le_max_right a y) (le_foldl_max ys (max a y))
    · exact ih (max a y) x h

theorem foldl_max_mem : ∀ (xs : List ℚ) (a : ℚ), xs.foldl max a = a ∨ xs.foldl max a ∈ xs := by
  intro xs
  induction xs with
  | nil => intro a; exact Or.inl rfl
  | cons y ys ih =>
    intro a
    rcases ih (max a y) with h | h
    · rcases max_choice a y with hm | hm
      · exact Or.inl (by rw [List.foldl_cons, h, hm])
      · refine Or.inr (List.mem_cons.mpr (Or.inl ?_))
        rw [List.foldl_cons, h, hm]
    · exact Or.inr (List.mem_cons.mpr (Or.inr h))

theorem le_listMax (l : List ℚ) (x : ℚ) (h : x ∈ l) : x ≤ listMax l := by
  cases l with
  | nil => exact absurd h (List.not_mem_nil x)
  | cons c cs =>
    rcases List.mem_cons.mp h with h | h
    · rw [h]
      exact le_foldl_max cs c
    · exact mem_le_foldl_max cs c x h

theorem listMax_mem (l : List ℚ) (h : l ≠ []) : listMax l ∈ l := by
  cases l with
  | nil => exact absurd rfl h
  | cons c cs =>
    rcases foldl_max_mem cs c with h | h
    · exact List.mem_cons.mpr (Or.inl h)
    · exact List.mem_cons.mpr (Or.inr h)

theorem pyIndexOf_lt_length : ∀ (l : List ℚ) (v : ℚ), v ∈ l → pyIndexOf v l < l.length := by
  intro l
  induction l with
  | nil => intro v h; exact absurd h (List.not_mem_nil v)
  | cons x xs ih =>
    intro v h
    by_cases hx : x = v
    · simp [pyIndexOf, hx]
    · rcases List.mem_cons.mp h with h | h
      · exact absurd h.symm hx
      · simpa [pyIndexOf, hx] using ih v h

theorem pyIndexOf_get : ∀ (l : List ℚ) (v : ℚ), v ∈ l → l.get? (pyIndexOf v l) = some v := by
  intro l
  induction l with
  | nil => intro v h; exact absurd h (List.not_mem_nil v)
  | cons x xs ih =>
    intro v h
    by_cases hx : x = v
    · simp [pyIndexOf, hx]
    · rcases List.mem_cons.mp h with h | h
      · exact absurd h.symm hx
      · simpa [pyIndexOf, hx] using ih v h

theorem pyIndexOf_earlier : ∀ (l : List ℚ) (v : ℚ) (j : ℕ), j < pyIndexOf v l →
    ∀ q, l.get? j = some q → q ≠ v := by
  intro l
  induction l with
  | nil => intro v j hj q hq; simp at hq
  | cons x xs ih =>
    intro v j hj q hq
    by_cases hx : x = v
    · rw [pyIndexOf, if_pos hx] at hj
      exact absurd hj (Nat.not_lt_zero j)
    · rw [pyIndexOf, if_neg hx] at hj
      cases j with
      | zero =>
        have hxq : x = q := by simpa using hq
        rw [← hxq]
        exact hx
      | succ j =>
        exact ih v j (Nat.lt_of_succ_lt_succ hj) q (by simpa using hq)

theorem takeScores_go_length : ∀ (segs : List CleaningSegment) (n m j : ℕ),
    (TranscriptCleaner.takeScores_go n m j segs).length = segs.length := by
  intro segs
  induction segs with
  | nil => intro n m j; rfl
  | cons s rest ih =>
    intro n m j
    simp [TranscriptCleaner.takeScores_go, ih]

theorem takeScores_go_get : ∀ (segs : List CleaningSegment) (n m j i : ℕ),
    (TranscriptCleaner.takeScores_go n m j segs).get? i
      = (segs.get? i).map (fun s => TranscriptCleaner.takeScore n m (j + i) s) := by
  intro segs
  induction segs with
  | nil => intro n m j i; rfl
  | cons s rest ih =>
    intro n m j i
    cases i with
    | zero => simp [TranscriptCleaner.takeScores_go]
    | succ i =>
      have h := ih n m (j + 1) i
      simp only [TranscriptCleaner.takeScores_go, List.get?]
      rw [h]
      have : j + 1 + i = j + (i + 1) := by omega
      rw [this]

theorem takeScores_get (segments : List CleaningSegment) (i : ℕ) :
    (TranscriptCleaner.takeScores segments).get? i
      = (segments.get? i).map
          (fun s => TranscriptCleaner.takeScore segments.length
            (TranscriptCleaner.maxCleanedLen segments) i s) := by
  have h := takeScores_go_get segments segments.length
    (TranscriptCleaner.maxCleanedLen segments) 0 i
  simpa using h

theorem takeScores_length (segments : List CleaningSegment) :
    (TranscriptCleaner.takeScores segments).length = segments.length :=
  takeScores_go_length segments _ _ _

/-- C5 (amended): within a take group of `n ≥ 2` segments with a
non-empty longest cleaned text, the surviving take is the segment
maximizing `0.5*(index/(n-1)) + 0.3*(len/max_len) + 0.2*confidence`, and
when several segments attain the maximal score the one with the LOWEST
index wins (Python `list.index` returns the first occurrence), not the
highest. -/
theorem c5_select_amended (segments : List CleaningSegment)
    (h2 : 2 ≤ segments.length) (hml : 0 < TranscriptCleaner.maxCleanedLen segments) :
    TranscriptCleaner.select_best_take_index segments < segments.length ∧
    (TranscriptCleaner.takeScores segments).get?
        (TranscriptCleaner.select_best_take_index segments)
      = some (listMax (TranscriptCleaner.takeScores segments)) ∧
    (∀ j q, (TranscriptCleaner.takeScores segments).get? j = some q →
      q ≤ listMax (TranscriptCleaner.takeScores segments)) ∧
    (∀ j q, j < TranscriptCleaner.select_best_take_index segments →
      (TranscriptCleaner.takeScores segments).get? j = some q →
      q < listMax (TranscriptCleaner.takeScores segments)) ∧
    (∀ i seg, segments.get? i = some seg →
      (TranscriptCleaner.takeScores segments).get? i
        = some ((i : ℚ) / ((segments.length : ℚ) - 1) * (1/2)
            + ((seg.cleaned_text.length : ℚ)
                / ((TranscriptCleaner.maxCleanedLen segments : ℕ) : ℚ)) * (3/10)
            + seg.confidence * (1/5))) := by
  have hne : TranscriptCleaner.takeScores segments ≠ [] := by
    intro hnil
    have := takeScores_length segments
    rw [hnil] at this
    simp at this
    omega
  have hmem := listMax_mem _ hne
  refine ⟨?_, ?_, ?_, ?_, ?_⟩
  · have h := pyIndexOf_lt_length _ _ hmem
    rw [takeScores_length segments] at h
    exact h
  · exact pyIndexOf_get _ _ hmem
  · intro j q hq
    exact le_listMax _ q (List.get?_mem hq)
  · intro j q hj hq
    have hne2 := pyIndexOf_earlier (TranscriptCleaner.takeScores segments)
      (listMax (TranscriptCleaner.takeScores segments)) j hj q hq
    exact lt_of_le_of_ne (le_listMax _ q (List.get?_mem hq)) hne2
  · intro i seg hseg
    rw [takeScores_get segments i, hseg]
    have hmax : max 1 (segments.length - 1) = segments.length - 1 :=
      Nat.max_eq_right (by omega)
    have hcast : ((segments.length - 1 : ℕ) : ℚ) = (segments.length : ℚ) - 1 := by
      have h1 : 1 ≤ segments.length := by omega
      push_cast [Nat.cast_sub h1]
      ring
    simp only [TranscriptCleaner.takeScore, hmax, hcast, if_pos hml, Option.map]

theorem c5_select_amended_witness :
    TranscriptCleaner.select_best_take_index
        [⟨0, 1, "", "a", 0, false, none⟩, ⟨2, 3, "", "aa", 1, false, none⟩]
      < ([⟨0, 1, "", "a", 0, false, none⟩,
          ⟨2, 3, "", "aa", 1, false, none⟩] : List CleaningSegment).length :=
  (c5_select_amended
    [⟨0, 1, "", "a", 0, false, none⟩, ⟨2, 3, "", "aa", 1, false, none⟩]
    (by decide) (by decide)).1

theorem c5_counterexample :
    TranscriptCleaner.select_best_take_index tieTakeGroup = 1 ∧
    (TranscriptCleaner.takeScores tieTakeGroup).get? 2
      = some (listMax (TranscriptCleaner.takeScores tieTakeGroup)) ∧
    (1 : ℕ) ≠ 2 := by
  have hlen1 : ("a".length = 1) := rfl
  have hlen4 : ("aaaa".length = 4) := rfl
  have hmax : TranscriptCleaner.maxCleanedLen tieTakeGroup = 4 := rfl
  have hs : TranscriptCleaner.takeScores tieTakeGroup = [3/40, 3/4, 3/4] := by
    show TranscriptCleaner.takeScores_go 3 (TranscriptCleaner.maxCleanedLen tieTakeGroup)
      0 tieTakeGroup = [3/40, 3/4, 3/4]
    rw [hmax]
    show [TranscriptCleaner.takeScore 3 4 0 ⟨0, 1, "", "a", 0, false, none⟩,
          TranscriptCleaner.takeScore 3 4 1 ⟨2, 3, "", "aaaa", 1, false, none⟩,
          TranscriptCleaner.takeScore 3 4 2 ⟨4, 5, "", "a", 7/8, false, none⟩]
      = [3/40, 3/4, 3/4]
    norm_num [TranscriptCleaner.takeScore, hlen1, hlen4]
  have hmaxv : listMax (TranscriptCleaner.takeScores tieTakeGroup) = 3/4 := by
    rw [hs]
    norm_num [listMax, max_def]
  constructor
  · show pyIndexOf (listMax (TranscriptCleaner.takeScores tieTakeGroup))
      (TranscriptCleaner.takeScores tieTakeGroup) = 1
    rw [hmaxv, hs]
    norm_num [pyIndexOf]
  · refine ⟨?_, by omega⟩
    rw [hmaxv, hs]
    rfl

theorem rational_time_to_seconds_of_not_drop (t : RationalTime) (f : FrameRateInfo)
    (hdf : f.is_drop_frame = false) :
    FrameRateHandler.rational_time_to_seconds t (some f) = t.value := by
  cases t with
  | whole q => simp [FrameRateHandler.rational_time_to_seconds, RationalTime.value, hdf]
  | frac n d =>
    by_cases hd : d = 0
    · simp [FrameRateHandler.rational_time_to_seconds, RationalTime.value, hd]
    · simp [FrameRateHandler.rational_time_to_seconds, RationalTime.value, hd, hdf]
  | malformed => rfl

/-- C7 (amended): the seconds/rational-time round trip restores the exact
time value for every NON-drop-frame rate when the input lies exactly on a
frame boundary; for drop-frame rates it can fail (see the
counterexample). -/
theorem c7_roundtrip_amended (t : RationalTime) (f : FrameRateInfo)
    (hdf : f.is_drop_frame = false) (htb : 0 < f.timebase)
    (halign : frameAligned t.value f) :
    (FrameRateHandler.seconds_to_rational_time
        (FrameRateHandler.rational_time_to_seconds t (some f)) f).value = t.value := by
  rw [rational_time_to_seconds_of_not_drop t f hdf]
  by_cases h1 : f.timescale = 1
  · simp [FrameRateHandler.seconds_to_rational_time, hdf, h1, RationalTime.value]
  · obtain ⟨k, hk⟩ := halign
    have htbZ : f.timebase ≠ 0 := by omega
    have htbQ : ((f.timebase : ℤ) : ℚ) ≠ 0 := by exact_mod_cast htbZ
    have hval : t.value * ((f.timebase : ℤ) : ℚ) = ((k * f.timescale : ℤ) : ℚ) := by
      push_cast
      exact hk
    have htr : pyTrunc (t.value * ((f.timebase : ℤ) : ℚ)) = k * f.timescale := by
      rw [hval, pyTrunc_intCast]
    have hout : FrameRateHandler.seconds_to_rational_time t.value f
        = RationalTime.frac ((pyTrunc (t.value * ((f.timebase : ℤ) : ℚ)) : ℚ))
            ((f.timebase : ℤ) : ℚ) := by
      simp [FrameRateHandler.seconds_to_rational_time, hdf, h1]
    rw [hout, htr]
    simp only [RationalTime.value]
    rw [if_neg htbQ, ← hval]
    exact mul_div_cancel_right₀ t.value htbQ

theorem c7_roundtrip_amended_witness :
    (FrameRateHandler.seconds_to_rational_time
        (FrameRateHandler.rational_time_to_seconds (RationalTime.frac 1001 30000)
          (some FRAME_RATES_2997)) FRAME_RATES_2997).value
      = (RationalTime.frac 1001 30000).value :=
  c7_roundtrip_amended (RationalTime.frac 1001 30000) FRAME_RATES_2997 rfl
    (by norm_num [FRAME_RATES_2997])
    ⟨1, by norm_num [RationalTime.value, FRAME_RATES_2997]⟩

theorem c7_counterexample :
    frameAligned ((RationalTime.frac 3599596 30000).value) FRAME_RATES_2997df ∧
    FrameRateHandler.seconds_to_rational_time
        (FrameRateHandler.rational_time_to_seconds (RationalTime.frac 3599596 30000)
          (some FRAME_RATES_2997df)) FRAME_RATES_2997df
      = RationalTime.frac 3597593 30000 ∧
    RationalTime.frac 3597593 30000 ≠ RationalTime.frac 3599596 30000 := by
  refine ⟨⟨3596, by norm_num [RationalTime.value, FRAME_RATES_2997df]⟩, ?_, by simp⟩
  have hm1 : pyTrunc ((899899 : ℚ)/450000) = 1 := by
    rw [pyTrunc_of_nonneg _ (by norm_num)]
    norm_num
  have hm2 : pyTrunc ((899499101 : ℚ)/449550000) = 2 := by
    rw [pyTrunc_of_nonneg _ (by norm_num)]
    norm_num
  have hfd1 : Int.fdiv 1 10 = 0 := rfl
  have hfd2 : Int.fdiv 2 10 = 0 := rfl
  have hsec : FrameRateHandler.rational_time_to_seconds (RationalTime.frac 3599596 30000)
      (some FRAME_RATES_2997df) = (899499101 : ℚ)/7492500 := by
    simp only [FrameRateHandler.rational_time_to_seconds,
      FrameRateHandler.apply_drop_frame_correction, FRAME_RATES_2997df]
    norm_num [hm1, hfd1]
  rw [hsec]
  have hrev : FrameRateHandler.reverse_drop_frame_correction ((899499101 : ℚ)/7492500)
      FRAME_RATES_2997df = (898499101 : ℚ)/7492500 := by
    simp only [FrameRateHandler.reverse_drop_frame_correction, FRAME_RATES_2997df]
    norm_num [hm2, hfd2]
  have htr : pyTrunc ((3593996404 : ℚ)/999) = 3597593 := by
    rw [pyTrunc_of_nonneg _ (by norm_num)]
    norm_num
  have hb : FRAME_RATES_2997df.is_drop_frame = true := rfl
  have htsv : FRAME_RATES_2997df.timescale = 1001 := rfl
  have htbv : FRAME_RATES_2997df.timebase = 30000 := rfl
  simp only [FrameRateHandler.seconds_to_rational_time, hb, htsv, htbv]
  norm_num [hrev, htr]

theorem c8_counterexample :
    FrameRateHandler.rational_time_to_seconds (RationalTime.frac 3600 30) (some cexDropRate)
      = (360040 : ℚ)/2997 ∧
    claimDropFrameSeconds ((3600 : ℚ)/30) cexDropRate = (144040 : ℚ)/1199 ∧
    (360040 : ℚ)/2997 ≠ (144040 : ℚ)/1199 := by
  have hpt : pyTrunc (2 : ℚ) = 2 := by
    rw [pyTrunc_of_nonneg _ (by norm_num)]
    norm_num
  have hfd2 : Int.fdiv 2 10 = 0 := rfl
  refine ⟨?_, ?_, by norm_num⟩
  · simp only [FrameRateHandler.rational_time_to_seconds,
      FrameRateHandler.apply_drop_frame_correction, cexDropRate]
    norm_num [hpt, hfd2, abs_lt]
  · simp only [claimDropFrameSeconds, cexDropRate]
    norm_num [hfd2, abs_lt]

/-- C8 (amended): the drop-frame correction of `to_seconds` uses the
hardcoded constants `29.97` and `59.94` in the frame arithmetic rather
than the `FrameRate`'s own `rate`, and truncates the minute count toward
zero; the claim's formula (stated with `rate`) coincides with the code
exactly when the rate equals the nominal constant and the parsed seconds
are nonnegative, and for rates outside both `0.01` windows no correction
is applied (and the claim's `K = 0` formula agrees). -/
theorem c8_drop_frame_amended (n d : ℚ) (f : FrameRateInfo) (hd : d ≠ 0)
    (hdf : f.is_drop_frame = true) (h0 : 0 ≤ n / d) :
    (f.rate = 2997/100 →
      FrameRateHandler.rational_time_to_seconds (RationalTime.frac n d) (some f)
        = claimDropFrameSeconds (n / d) f) ∧
    (f.rate = 5994/100 →
      FrameRateHandler.rational_time_to_seconds (RationalTime.frac n d) (some f)
        = claimDropFrameSeconds (n / d) f) ∧
    ((¬ |f.rate - 2997/100| < 1/100) → (¬ |f.rate - 5994/100| < 1/100) → f.rate ≠ 0 →
      FrameRateHandler.rational_time_to_seconds (RationalTime.frac n d) (some f) = n / d ∧
      claimDropFrameSeconds (n / d) f = n / d) := by
  have hq : FrameRateHandler.rational_time_to_seconds (RationalTime.frac n d) (some f)
      = FrameRateHandler.apply_drop_frame_correction (n / d) f := by
    simp [FrameRateHandler.rational_time_to_seconds, hd, hdf]
  refine ⟨?_, ?_, ?_⟩
  · intro hr
    rw [hq]
    have hnn : 0 ≤ n / d * (2997/100) / ((8991 : ℚ)/5) :=
      div_nonneg (mul_nonneg h0 (by norm_num)) (by norm_num)
    simp only [FrameRateHandler.apply_drop_frame_correction, claimDropFrameSeconds, hdf, hr]
    norm_num [abs_lt]
    rw [pyTrunc_of_nonneg _ hnn]
  · intro hr
    rw [hq]
    have hnn : 0 ≤ n / d * ((2997 : ℚ)/50) / ((17982 : ℚ)/5) :=
      div_nonneg (mul_nonneg h0 (by norm_num)) (by norm_num)
    simp only [FrameRateHandler.apply_drop_frame_correction, claimDropFrameSeconds, hdf, hr]
    norm_num [abs_lt]
    rw [pyTrunc_of_nonneg _ hnn]
  · intro h1 h2 hr0
    constructor
    · rw [hq]
      simp only [FrameRateHandler.apply_drop_frame_correction, hdf]
      rw [if_neg (by simp), if_neg h1, if_neg h2]
    · simp only [claimDropFrameSeconds]
      rw [if_neg h1, if_neg h2]
      norm_num
      exact mul_div_cancel_right₀ (n/d) hr0

theorem c8_drop_frame_amended_witness :
    FrameRateHandler.rational_time_to_seconds (RationalTime.frac 3600 30)
        (some FRAME_RATES_2997df)
      = claimDropFrameSeconds ((3600 : ℚ)/30) FRAME_RATES_2997df :=
  (c8_drop_frame_amended 3600 30 FRAME_RATES_2997df (by norm_num) rfl (by norm_num)).1 rfl

theorem sumRanges_nil : sumRanges [] = 0 := rfl

theorem sumRanges_singleton (r : TimeRange) : sumRanges [r] = r.stop - r.start := by
  simp [sumRanges]

theorem middle_cuts_sum : ∀ (rest : List TimeRange) (k0 : TimeRange),
    sumRanges (k0 :: rest) + sumRanges (TranscriptCleaner.middle_cuts (k0 :: rest))
      = TranscriptCleaner.lastStop k0.stop rest - k0.start := by
  intro rest
  induction rest with
  | nil =>
    intro k0
    simp [sumRanges, TranscriptCleaner.middle_cuts, TranscriptCleaner.lastStop]
  | cons b bs ih =>
    intro k0
    have h := ih b
    simp only [TranscriptCleaner.middle_cuts, TranscriptCleaner.lastStop, sumRanges,
      List.map_cons, List.sum_cons] at h ⊢
    linarith

theorem build_keep_go_head : ∀ (ks : List CleaningSegment) (cs ce : ℚ),
    ∃ e tl, TranscriptCleaner.build_keep_go cs ce ks = TimeRange.mk cs e :: tl := by
  intro ks
  induction ks with
  | nil => intro cs ce; exact ⟨ce, [], rfl⟩
  | cons s rest ih =>
    intro cs ce
    by_cases hgap : s.start_time - ce ≤ 1
    · obtain ⟨e, tl, h⟩ := ih cs s.end_time
      refine ⟨e, tl, ?_⟩
      simp only [TranscriptCleaner.build_keep_go, if_pos hgap]
      exact h
    · refine ⟨ce, TranscriptCleaner.build_keep_go s.start_time s.end_time rest, ?_⟩
      simp only [TranscriptCleaner.build_keep_go, if_neg hgap]

theorem build_keep_go_stop_le : ∀ (ks : List CleaningSegment) (cs ce B : ℚ),
    ce ≤ B → (∀ s ∈ ks, s.end_time ≤ B) →
    ∀ r ∈ TranscriptCleaner.build_keep_go cs ce ks, r.stop ≤ B := by
  intro ks
  induction ks with
  | nil =>
    intro cs ce B hce _ r hr
    simp only [TranscriptCleaner.build_keep_go, List.mem_singleton] at hr
    rw [hr]
    exact hce
  | cons s rest ih =>
    intro cs ce B hce hall r hr
    by_cases hgap : s.start_time - ce ≤ 1
    · simp only [TranscriptCleaner.build_keep_go, if_pos hgap] at hr
      exact ih cs s.end_time B (hall s (List.mem_cons_self s rest))
        (fun t ht => hall t (List.mem_cons_of_mem s ht)) r hr
    · simp only [TranscriptCleaner.build_keep_go, if_neg hgap] at hr
      rcases List.mem_cons.mp hr with h | h
      · rw [h]
        exact hce
      · exact ih s.start_time s.end_time B (hall s (List.mem_cons_self s rest))
          (fun t ht => hall t (List.mem_cons_of_mem s ht)) r h

theorem lastStop_le (B : ℚ) : ∀ (l : List TimeRange) (d : ℚ), d ≤ B →
    (∀ r ∈ l, r.stop ≤ B) → TranscriptCleaner.lastStop d l ≤ B := by
  intro l
  induction l with
  | nil => intro d hd _; exact hd
  | cons r rs ih =>
    intro d hd hall
    exact ih r.stop (hall r (List.mem_cons_self r rs))
      (fun t ht => hall t (List.mem_cons_of_mem r ht))

theorem le_maxEnd_go : ∀ (l : List CleaningSegment) (m : ℚ),
    m ≤ TranscriptCleaner.maxEnd_go m l := by
  intro l
  induction l with
  | nil => intro m; exact le_refl m
  | cons s rest ih =>
    intro m
    exact le_trans (le_max_left m s.end_time) (ih (max m s.end_time))

theorem mem_le_maxEnd_go : ∀ (l : List CleaningSegment) (m : ℚ) (s : CleaningSegment),
    s ∈ l → s.end_time ≤ TranscriptCleaner.maxEnd_go m l := by
  intro l
  induction l with
  | nil => intro m s h; exact absurd h (List.not_mem_nil s)
  | cons c cs ih =>
    intro m s h
    rcases List.mem_cons.mp h with h | h
    · rw [h]
      exact le_trans (le_max_right m c.end_time) (le_maxEnd_go cs (max m c.end_time))
    · exact ih (max m c.end_time) s h

theorem mem_le_maxEnd (l : List CleaningSegment) (s : CleaningSegment) (h : s ∈ l) :
    s.end_time ≤ TranscriptCleaner.maxEnd l := by
  cases l with
  | nil => exact absurd h (List.not_mem_nil s)
  | cons c cs =>
    rcases List.mem_cons.mp h with h | h
    · rw [h]
      exact le_maxEnd_go cs c.end_time
    · exact mem_le_maxEnd_go cs c.end_time s h

theorem build_cut_ranges_sum (k0 : TimeRange) (rest : List TimeRange) (total : ℚ)
    (h0 : 0 ≤ k0.start) (hlast : TranscriptCleaner.lastStop k0.stop rest ≤ total) :
    sumRanges (k0 :: rest)
      + sumRanges (TranscriptCleaner.build_cut_ranges (k0 :: rest) total) = total := by
  have hmid := middle_cuts_sum rest k0
  simp only [TranscriptCleaner.build_cut_ranges]
  rw [sumRanges_append, sumRanges_append]
  by_cases h1 : 0 < k0.start
  · rw [if_pos h1]
    by_cases h2 : TranscriptCleaner.lastStop k0.stop rest < total
    · rw [if_pos h2, sumRanges_singleton, sumRanges_singleton]
      simp only [TimeRange.mk.injEq]
      linarith
    · rw [if_neg h2, sumRanges_singleton, sumRanges_nil]
      have : TranscriptCleaner.lastStop k0.stop rest = total := le_antisymm hlast (not_lt.mp h2)
      simp only [TimeRange.mk.injEq]
      linarith
  · rw [if_neg h1, sumRanges_nil]
    have hz : k0.start = 0 := le_antisymm (not_lt.mp h1) h0
    by_cases h2 : TranscriptCleaner.lastStop k0.stop rest < total
    · rw [if_pos h2, sumRanges_singleton]
      linarith
    · rw [if_neg h2, sumRanges_nil]
      have : TranscriptCleaner.lastStop k0.stop rest = total := le_antisymm hlast (not_lt.mp h2)
      linarith

/-- C3 (amended): for every NON-EMPTY set of keeper segments drawn from
the original segments, with nonnegative keeper start times, the keep-range
durations plus the cut-range durations sum exactly to the total original
duration (so in particular within the claimed `1e-6` tolerance); with zero
keeper segments the code instead returns no cut ranges at all and the sum
falls short by the whole duration (see the counterexample). -/
theorem c3_sum_amended (original_segments keeper_segments : List CleaningSegment)
    (hne : keeper_segments ≠ [])
    (hsub : ∀ s ∈ keeper_segments, s ∈ original_segments)
    (hpos : ∀ s ∈ keeper_segments, 0 ≤ s.start_time) :
    |sumRanges (TranscriptCleaner.create_timing_mapping original_segments
          keeper_segments).keep_ranges
      + sumRanges (TranscriptCleaner.create_timing_mapping original_segments
          keeper_segments).cut_ranges
      - (TranscriptCleaner.create_timing_mapping original_segments
          keeper_segments).total_original_duration| ≤ 1/1000000 := by
  cases keeper_segments with
  | nil => exact absurd rfl hne
  | cons k ks =>
    obtain ⟨e, tl, hkeep⟩ := build_keep_go_head ks k.start_time k.end_time
    have hkB : k.end_time ≤ TranscriptCleaner.maxEnd original_segments :=
      mem_le_maxEnd _ _ (hsub k (List.mem_cons_self k ks))
    have hallB : ∀ s ∈ ks, s.end_time ≤ TranscriptCleaner.maxEnd original_segments :=
      fun s hs => mem_le_maxEnd _ _ (hsub s (List.mem_cons_of_mem k hs))
    have hstops := build_keep_go_stop_le ks k.start_time k.end_time
      (TranscriptCleaner.maxEnd original_segments) hkB hallB
    have heB : e ≤ TranscriptCleaner.maxEnd original_segments := by
      have := hstops (TimeRange.mk k.start_time e)
        (by rw [hkeep]; exact List.mem_cons_self _ tl)
      exact this
    have htlB : ∀ r ∈ tl, r.stop ≤ TranscriptCleaner.maxEnd original_segments := by
      intro r hr
      exact hstops r (by rw [hkeep]; exact List.mem_cons_of_mem _ hr)
    have hlast : TranscriptCleaner.lastStop e tl
        ≤ TranscriptCleaner.maxEnd original_segments :=
      lastStop_le _ tl e heB htlB
    have h0 : 0 ≤ k.start_time := hpos k (List.mem_cons_self k ks)
    have hsum := build_cut_ranges_sum (TimeRange.mk k.start_time e) tl
      (TranscriptCleaner.maxEnd original_segments) h0 hlast
    have hkr : (TranscriptCleaner.create_timing_mapping original_segments
        (k :: ks)).keep_ranges = TimeRange.mk k.start_time e :: tl := hkeep
    have hcr : (TranscriptCleaner.create_timing_mapping original_segments
        (k :: ks)).cut_ranges
        = TranscriptCleaner.build_cut_ranges (TimeRange.mk k.start_time e :: tl)
            (TranscriptCleaner.maxEnd original_segments) := by
      show TranscriptCleaner.build_cut_ranges
          (TranscriptCleaner.build_keep_ranges (k :: ks))
          (TranscriptCleaner.maxEnd original_segments) = _
      rw [show TranscriptCleaner.build_keep_ranges (k :: ks)
          = TimeRange.mk k.start_time e :: tl from hkeep]
    have htot : (TranscriptCleaner.create_timing_mapping original_segments
        (k :: ks)).total_original_duration
        = TranscriptCleaner.maxEnd original_segments := rfl
    rw [hkr, hcr, htot, hsum, sub_self, abs_zero]
    norm_num

theorem c3_sum_amended_witness :
    |sumRanges (TranscriptCleaner.create_timing_mapping
          [⟨0, 10, "t", "t", 1, false, none⟩]
          [⟨0, 10, "t", "t", 1, false, none⟩]).keep_ranges
      + sumRanges (TranscriptCleaner.create_timing_mapping
          [⟨0, 10, "t", "t", 1, false, none⟩]
          [⟨0, 10, "t", "t", 1, false, none⟩]).cut_ranges
      - (TranscriptCleaner.create_timing_mapping
          [⟨0, 10, "t", "t", 1, false, none⟩]
          [⟨0, 10, "t", "t", 1, false, none⟩]).total_original_duration| ≤ 1/1000000 :=
  c3_sum_amended [⟨0, 10, "t", "t", 1, false, none⟩] [⟨0, 10, "t", "t", 1, false, none⟩]
    (by simp) (by simp) (by intro s hs; rw [List.mem_singleton.mp hs])

theorem c3_counterexample :
    ¬ (|sumRanges (TranscriptCleaner.create_timing_mapping
            [⟨0, 10, "t", "t", 1, false, none⟩] []).keep_ranges
        + sumRanges (TranscriptCleaner.create_timing_mapping
            [⟨0, 10, "t", "t", 1, false, none⟩] []).cut_ranges
        - (TranscriptCleaner.create_timing_mapping
            [⟨0, 10, "t", "t", 1, false, none⟩] []).total_original_duration|
      ≤ 1/1000000) := by
  intro h
  have hkr : (TranscriptCleaner.create_timing_mapping
      [⟨0, 10, "t", "t", 1, false, none⟩] []).keep_ranges = [] := rfl
  have hcr : (TranscriptCleaner.create_timing_mapping
      [⟨0, 10, "t", "t", 1, false, none⟩] []).cut_ranges = [] := rfl
  have htot : (TranscriptCleaner.create_timing_mapping
      [⟨0, 10, "t", "t", 1, false, none⟩] []).total_original_duration = 10 := rfl
  rw [hkr, hcr, htot, sumRanges_nil] at h
  norm_num [abs_le] at h

theorem build_keep_go_invariant : ∀ (ks : List CleaningSegment) (cs ce : ℚ),
    (∀ s ∈ ks, s.start_time ≤ s.end_time) →
    List.Pairwise (fun a b => a.start_time ≤ b.start_time) ks →
    (∀ s ∈ ks, cs ≤ s.start_time) →
    cs ≤ ce →
    (∀ r ∈ TranscriptCleaner.build_keep_go cs ce ks, r.start ≤ r.stop) ∧
    List.Chain' (fun a b => 1 < b.start - a.stop)
      (TranscriptCleaner.build_keep_go cs ce ks) := by
  intro ks
  induction ks with
  | nil =>
    intro cs ce _ _ _ hce
    constructor
    · intro r hr
      simp only [TranscriptCleaner.build_keep_go, List.mem_singleton] at hr
      rw [hr]
      exact hce
    · simp [TranscriptCleaner.build_keep_go]
  | cons s rest ih =>
    intro cs ce hwf hsort hcs hce
    have hss : s.start_time ≤ s.end_time := hwf s (List.mem_cons_self s rest)
    have hsrest : ∀ t ∈ rest, s.start_time ≤ t.start_time :=
      (List.pairwise_cons.mp hsort).1
    have hwfrest : ∀ t ∈ rest, t.start_time ≤ t.end_time :=
      fun t ht => hwf t (List.mem_cons_of_mem s ht)
    have hsortrest : List.Pairwise (fun a b => a.start_time ≤ b.start_time) rest :=
      (List.pairwise_cons.mp hsort).2
    by_cases hgap : s.start_time - ce ≤ 1
    · have hcs2 : ∀ t ∈ rest, cs ≤ t.start_time :=
        fun t ht => hcs t (List.mem_cons_of_mem s ht)
      have hce2 : cs ≤ s.end_time :=
        le_trans (hcs s (List.mem_cons_self s rest)) hss
      have h := ih cs s.end_time hwfrest hsortrest hcs2 hce2
      simpa only [TranscriptCleaner.build_keep_go, if_pos hgap] using h
    · obtain ⟨inv1, inv2⟩ := ih s.start_time s.end_time hwfrest hsortrest hsrest hss
      obtain ⟨e, tl, hrec⟩ := build_keep_go_head rest s.start_time s.end_time
      constructor
      · intro r hr
        simp only [TranscriptCleaner.build_keep_go, if_neg hgap] at hr
        rcases List.mem_cons.mp hr with h | h
        · rw [h]
          exact hce
        · exact inv1 r h
      · simp only [TranscriptCleaner.build_keep_go, if_neg hgap]
        rw [hrec] at inv2 ⊢
        refine List.chain'_cons.mpr ⟨?_, inv2⟩
        have : 1 < s.start_time - ce := not_le.mp hgap
        show 1 < (TimeRange.mk s.start_time e).start - (TimeRange.mk cs ce).stop
        linarith

theorem chain_gap_pairwise : ∀ (l : List TimeRange),
    (∀ r ∈ l, r.start ≤ r.stop) →
    List.Chain' (fun a b => 1 < b.start - a.stop) l →
    List.Pairwise (fun a b => a.stop < b.start) l := by
  intro l
  induction l with
  | nil => intro _ _; exact List.Pairwise.nil
  | cons x xs ih =>
    intro hwf hch
    cases xs with
    | nil => simp
    | cons y ys =>
      have hxy : 1 < y.start - x.stop := (List.chain'_cons.mp hch).1
      have hrest := ih (fun r hr => hwf r (List.mem_cons_of_mem x hr))
        (List.chain'_cons.mp hch).2
      refine List.pairwise_cons.mpr ⟨?_, hrest⟩
      intro z hz
      rcases List.mem_cons.mp hz with h | h
      · rw [h]
        linarith
      · have h1 : y.stop < z.start := (List.pairwise_cons.mp hrest).1 z h
        have h2 : y.start ≤ y.stop :=
          hwf y (List.mem_cons_of_mem x (List.mem_cons_self y ys))
        linarith

/-- C9: for keeper segments sorted by start time with well-formed
timing (`start ≤ end`), the produced keep ranges are sorted by start,
pairwise non-overlapping, and consecutive keep ranges are separated by
gaps strictly greater than the 1.0-second merge tolerance. -/
theorem c9_keep_ranges_invariants (keeper_segments : List CleaningSegment)
    (hsorted : List.Pairwise (fun a b => a.start_time ≤ b.start_time) keeper_segments)
    (hwf : ∀ s ∈ keeper_segments, s.start_time ≤ s.end_time) :
    List.Pairwise (fun a b => a.start ≤ b.start)
      (TranscriptCleaner.build_keep_ranges keeper_segments) ∧
    List.Pairwise (fun a b => a.stop < b.start)
      (TranscriptCleaner.build_keep_ranges keeper_segments) ∧
    List.Chain' (fun a b => 1 < b.start - a.stop)
      (TranscriptCleaner.build_keep_ranges keeper_segments) := by
  cases keeper_segments with
  | nil => simp [TranscriptCleaner.build_keep_ranges]
  | cons k ks =>
    have hkstart : ∀ s ∈ ks, k.start_time ≤ s.start_time :=
      (List.pairwise_cons.mp hsorted).1
    obtain ⟨inv1, inv2⟩ := build_keep_go_invariant ks k.start_time k.end_time
      (fun s hs => hwf s (List.mem_cons_of_mem k hs))
      (List.pairwise_cons.mp hsorted).2 hkstart (hwf k (List.mem_cons_self k ks))
    have hkeq : TranscriptCleaner.build_keep_ranges (k :: ks)
        = TranscriptCleaner.build_keep_go k.start_time k.end_time ks := rfl
    rw [hkeq]
    have hpw := chain_gap_pairwise _ inv1 inv2
    refine ⟨?_, hpw, inv2⟩
    refine List.Pairwise.imp_of_mem ?_ hpw
    intro a b ha hb hr
    exact le_of_lt (lt_of_le_of_lt (inv1 a ha) hr)

theorem c9_keep_ranges_invariants_witness :
    List.Chain' (fun a b => 1 < b.start - a.stop)
      (TranscriptCleaner.build_keep_ranges
        [⟨0, 1, "t", "t", 1, false, none⟩, ⟨3, 4, "t", "t", 1, false, none⟩]) :=
  (c9_keep_ranges_invariants
    [⟨0, 1, "t", "t", 1, false, none⟩, ⟨3, 4, "t", "t", 1, false, none⟩]
    (by norm_num [List.pairwise_cons])
    (by
      intro s hs
      rcases List.mem_cons.mp hs with h | h
      · rw [h]
        norm_num
      · rw [List.mem_singleton.mp h]
        norm_num)).2.2
